import Mathlib

/-!
Shallow embedding of the Jan Darpan grievance tracker (`app.py`): the
record store, classifier (`categorize_grievance`), scorer
(`grievance_score`), action advisor (`suggest_action`), escalation rule
(`auto_escalate`) and the record-mutating branches of the UI (record
creation on submission, the Admin Panel status-update loop), together
with theorems checking the specification's claims about them.

Strings are Lean `String`s; Python's `needle in hay` substring test is
`containsSub`, and `text.lower()` is `String.toLower` (charwise
lowering, which agrees with Python on the ASCII keywords the program
uses). A record's `Date` field (an ISO `%Y-%m-%d` string parsed with
`strptime` in the source) is modelled as the day ordinal of the parsed
calendar date, so that Python's `(today - g_date).days` is integer
subtraction.
-/

namespace Grievance

/-- True when `needle` is a prefix of `hay` (helper for `containsSub`). -/
def startsWithChars : List Char → List Char → Bool
  | [], _ => true
  | _ :: _, [] => false
  | a :: as, b :: bs => (a == b) && startsWithChars as bs

/-- Substring containment on char lists: Python's `needle in hay`. -/
def containsSub (needle : List Char) : List Char → Bool
  | [] => needle.isEmpty
  | c :: rest => startsWithChars needle (c :: rest) || containsSub needle rest

/-- Python's `text.lower()`: charwise lowering of the text's characters
(given as the lowered character list). -/
def lowerData (text : String) : List Char := text.data.map Char.toLower

/-- Python's `kw in text.lower()`, the test used throughout the logic functions. -/
def kwIn (kw text : String) : Bool := containsSub kw.data (lowerData text)

/-- The fixed category table of `categorize_grievance`, in source (insertion) order. -/
def categories : List (String × List String) :=
  [("Water Supply", ["water", "supply", "tap"]),
   ("Garbage", ["garbage", "trash", "waste"]),
   ("Electricity", ["electric", "light", "power"]),
   ("Road Damage", ["road", "pothole", "crack"])]

/-- The `for category, keywords in categories.items()` loop of
`categorize_grievance`: the first table entry with a matching keyword, else
"Other". -/
def firstCategory (text : String) : List (String × List String) → String
  | [] => "Other"
  | (cat, kws) :: rest =>
      if kws.any (fun k => kwIn k text) then cat else firstCategory text rest

/-- Source `categorize_grievance`. -/
def categorize_grievance (text : String) : String := firstCategory text categories

/-- High urgency keyword list of `grievance_score` (weight 40). -/
def urgent_keywords : List String :=
  ["urgent", "danger", "injury", "critical", "emergency", "life-threatening",
   "fire", "flood", "accident", "immediate", "disaster"]

/-- Medium urgency keyword list of `grievance_score` (weight 20). -/
def medium_keywords : List String :=
  ["important", "delayed", "issue", "complaint", "damaged", "repair",
   "malfunction", "urgent", "critical", "problem"]

/-- Low urgency keyword list of `grievance_score` (weight 5). -/
def low_keywords : List String :=
  ["routine", "normal", "minor", "checkup", "maintenance", "scheduled",
   "repair", "recheck", "regular", "ongoing"]

/-- One keyword loop of `grievance_score`: starting from `init`, add `w` for
each list entry contained in the lowercased text. -/
def tally (text : String) (w : Nat) (kws : List String) (init : Nat) : Nat :=
  kws.foldl (fun s kw => if kwIn kw text then s + w else s) init

/-- Source `grievance_score`: three weighted keyword tallies, a +25 bonus for
"not resolved"/"again", a +50 base, capped at 100. All additions are
non-negative, so `Nat` is a faithful carrier for the Python `int`. -/
def grievance_score (text : String) : Nat :=
  let s1 := tally text 40 urgent_keywords 0
  let s2 := tally text 20 medium_keywords s1
  let s3 := tally text 5 low_keywords s2
  let s4 := if kwIn "not resolved" text || kwIn "again" text then s3 + 25 else s3
  min (s4 + 50) 100

/-- The `actions` dict built inside `suggest_action` (value strings depend on
the priority, exactly as in the source). -/
def actions (priority : Nat) : List (String × String) :=
  [("Water Supply",
      if priority > 70 then "Forward to Jal Nigam for urgent inspection"
      else "Forward to Jal Nigam for regular check"),
   ("Road Damage",
      if priority > 70 then "Notify PWD for immediate repair"
      else "Notify PWD for standard check"),
   ("Garbage",
      if priority > 70 then "Alert sanitation department for immediate cleaning"
      else "Alert sanitation department for routine collection"),
   ("Electricity",
      if priority > 70 then "Notify electricity board for urgent check"
      else "Notify electricity board for regular maintenance")]

/-- Source `suggest_action`: Python
`actions.get(category, "Review and assign appropriate department.")`. -/
def suggest_action (category : String) (priority : Nat) : String :=
  ((actions priority).lookup category).getD "Review and assign appropriate department."

/-- Source `extract_keywords`: words of the lowercased text longer than 4
characters (Python `split()` drops empty chunks; the length filter makes that
immaterial here). -/
def extract_keywords (text : String) : List String :=
  ((String.mk (lowerData text)).split Char.isWhitespace).filter (fun w => w.length > 4)

/-- A grievance record, with the fields the Submit branch stores. `Date` is
the day ordinal of the parsed `%Y-%m-%d` date. -/
structure Record where
  ID : String
  Name : String
  Text : String
  Category : String
  Date : Int
  Priority : Nat
  Keywords : List String
  Status : String
  Escalated : String
  Image : Option String
  Attachment : Option String
deriving DecidableEq, Repr

/-- Source `auto_escalate`, with `today` passed explicitly: returns the Python
return value paired with the (possibly mutated) record. `today - g.Date` is
`(today - g_date).days`. -/
def auto_escalate (today : Int) (g : Record) : Bool × Record :=
  if g.Status = "Pending" ∧ today - g.Date > 3 then
    (true, { g with Escalated := "Yes", Status := "Escalated" })
  else
    (false, g)

/-- The record built and appended by the Submit Grievance branch. -/
def newRecord (id name text : String) (date : Int) (image attachment : Option String) :
    Record :=
  { ID := id, Name := name, Text := text,
    Category := categorize_grievance text,
    Date := date,
    Priority := grievance_score text,
    Keywords := extract_keywords text,
    Status := "Pending",
    Escalated := "No",
    Image := image, Attachment := attachment }

/-- The Submit Grievance branch appends the new record to the collection. -/
def submitGrievance (gs : List Record) (id name text : String) (date : Int)
    (image attachment : Option String) : List Record :=
  gs ++ [newRecord id name text date image attachment]

/-- Body of the Admin Panel update loop: for a record with the selected ID,
assign the chosen status first and then run `auto_escalate` on it; other
records are untouched. -/
def adminUpdateRecord (today : Int) (selectedId newStatus : String) (g : Record) :
    Record :=
  if g.ID = selectedId then (auto_escalate today { g with Status := newStatus }).2 else g

/-- The Admin Panel "Update Status" action over the whole collection. -/
def updateStatus (today : Int) (selectedId newStatus : String) (gs : List Record) :
    List Record :=
  gs.map (adminUpdateRecord today selectedId newStatus)

/-- A concrete record used by witnesses: 5 days old and pending. -/
def rec0 : Record :=
  { ID := "a", Name := "n", Text := "t", Category := "Other", Date := 5,
    Priority := 50, Keywords := [], Status := "Pending", Escalated := "No",
    Image := none, Attachment := none }

mutual
/-- JSON values as handled by the `json` module calls in the source: the
persisted document holds a list of record objects whose values are strings,
integers, string lists and `None`. Floats never occur in any value the app
writes, so they are not modelled. -/
inductive JVal where
  | jnull
  | jbool (b : Bool)
  | jint (n : Int)
  | jstr (s : List Char)
  | jarr (xs : JArr)
  | jobj (fs : JObj)
inductive JArr where
  | anil
  | acons (v : JVal) (rest : JArr)
inductive JObj where
  | onil
  | ocons (k : List Char) (v : JVal) (rest : JObj)
end

/-- Lowercase hexadecimal digit, as Python's `json` encoder emits. -/
def hexDigit (n : Nat) : Char :=
  if n < 10 then Char.ofNat (48 + n) else Char.ofNat (87 + n)

/-- Four lowercase hex digits of `n < 65536`. -/
def hex4 (n : Nat) : List Char :=
  [hexDigit (n / 4096 % 16), hexDigit (n / 256 % 16), hexDigit (n / 16 % 16),
   hexDigit (n % 16)]

/-- Python `json` escaping of one character with the default
`ensure_ascii=True`: named escapes for quote, backslash and the common
control characters, printable ASCII kept literal, everything else as
`\uXXXX` (a surrogate pair beyond the BMP). -/
def escChar (c : Char) : List Char :=
  if c = '"' then ['\\', '"']
  else if c = '\\' then ['\\', '\\']
  else if c = '\n' then ['\\', 'n']
  else if c = '\r' then ['\\', 'r']
  else if c = '\t' then ['\\', 't']
  else if c.toNat = 8 then ['\\', 'b']
  else if c.toNat = 12 then ['\\', 'f']
  else if 32 ≤ c.toNat ∧ c.toNat ≤ 126 then [c]
  else if c.toNat < 65536 then '\\' :: 'u' :: hex4 c.toNat
  else ('\\' :: 'u' :: hex4 (55296 + (c.toNat - 65536) / 1024))
       ++ ('\\' :: 'u' :: hex4 (56320 + (c.toNat - 65536) % 1024))

/-- Escaped body of a JSON string. -/
def escBody (s : List Char) : List Char := (s.map escChar).flatten

/-- A JSON string literal as `json.dump` writes it. -/
def dumpStr (s : List Char) : List Char := '"' :: (escBody s ++ ['"'])

/-- Decimal digit character. -/
def digitChar (d : Nat) : Char := Char.ofNat (48 + d)

/-- Fueled most-significant-first decimal digit accumulator. -/
def natDigitsCore : Nat → Nat → List Char → List Char
  | 0, _, acc => acc
  | fuel + 1, n, acc =>
      if n < 10 then digitChar n :: acc
      else natDigitsCore fuel (n / 10) (digitChar (n % 10) :: acc)

/-- Decimal digits of `n`, most significant first. -/
def natDigits (n : Nat) : List Char := natDigitsCore (n + 1) n []

/-- Python `repr` of an int, as `json.dump` writes integers. -/
def dumpInt (n : Int) : List Char :=
  if n < 0 then '-' :: natDigits n.natAbs else natDigits n.natAbs

/-- Specification view of `natDigits` used in proofs (not executed). -/
def digitsSpec (n : Nat) : List Char :=
  if n < 10 then [digitChar n]
  else digitsSpec (n / 10) ++ [digitChar (n % 10)]
decreasing_by exact Nat.div_lt_self (by omega) (by omega)

/-- Four-spaces-per-level indentation prefix of `json.dump(..., indent=4)`. -/
def ind (d : Nat) : List Char := List.replicate (4 * d) ' '

mutual
/-- The exact character stream `json.dump(v, f, indent=4)` writes for `v`
when nested at depth `d` (with the module's default separators `","` and
`": "` and `ensure_ascii=True`; the output is pure ASCII, so characters are
bytes). -/
def printV (d : Nat) : JVal → List Char
  | .jnull => ['n', 'u', 'l', 'l']
  | .jbool true => ['t', 'r', 'u', 'e']
  | .jbool false => ['f', 'a', 'l', 's', 'e']
  | .jint n => dumpInt n
  | .jstr s => dumpStr s
  | .jarr .anil => ['[', ']']
  | .jarr (.acons v xs) =>
      '[' :: '\n' :: (ind (d + 1) ++ printV (d + 1) v ++ printANext (d + 1) xs
        ++ '\n' :: (ind d ++ [']']))
  | .jobj .onil => ['{', '}']
  | .jobj (.ocons k v fs) =>
      '{' :: '\n' :: (ind (d + 1) ++ dumpStr k ++ ':' :: ' ' :: (printV (d + 1) v
        ++ printONext (d + 1) fs ++ '\n' :: (ind d ++ ['}'])))

/-- Second and later array items: `",\n" ++ indent ++ item` each. -/
def printANext (d : Nat) : JArr → List Char
  | .anil => []
  | .acons v xs => ',' :: '\n' :: (ind d ++ printV d v ++ printANext d xs)

/-- Second and later object members. -/
def printONext (d : Nat) : JObj → List Char
  | .onil => []
  | .ocons k v fs =>
      ',' :: '\n' :: (ind d ++ dumpStr k ++ ':' :: ' ' :: (printV d v ++ printONext d fs))
end

/-- JSON whitespace (the `json.decoder` skip set: space, tab, LF, CR). -/
def isWsChar (c : Char) : Bool :=
  c.toNat = 32 || c.toNat = 9 || c.toNat = 10 || c.toNat = 13

/-- Drop leading JSON whitespace. -/
def skipWs : List Char → List Char
  | [] => []
  | c :: rest => if isWsChar c then skipWs rest else c :: rest

/-- Decimal digit test. -/
def isDigitChar (c : Char) : Bool := 48 ≤ c.toNat && c.toNat ≤ 57

/-- Longest digit prefix and the remainder. -/
def takeDigits : List Char → List Char × List Char
  | [] => ([], [])
  | c :: rest =>
      if isDigitChar c then
        let p := takeDigits rest
        (c :: p.1, p.2)
      else ([], c :: rest)

/-- Numeric value of a digit string. -/
def digitsToNat (ds : List Char) : Nat :=
  ds.foldl (fun acc c => acc * 10 + (c.toNat - 48)) 0

/-- Value of one hex digit (json accepts both cases). -/
def hexVal (c : Char) : Option Nat :=
  if 48 ≤ c.toNat ∧ c.toNat ≤ 57 then some (c.toNat - 48)
  else if 97 ≤ c.toNat ∧ c.toNat ≤ 102 then some (c.toNat - 87)
  else if 65 ≤ c.toNat ∧ c.toNat ≤ 70 then some (c.toNat - 55)
  else none

/-- Read exactly four hex digits. -/
def parseHex4 : List Char → Option (Nat × List Char)
  | a :: b :: c :: d :: rest =>
      match hexVal a, hexVal b, hexVal c, hexVal d with
      | some va, some vb, some vc, some vd =>
          some ((((va * 16 + vb) * 16 + vc) * 16 + vd), rest)
      | _, _, _, _ => none
  | _ => none

/-- Read one string escape (the characters after a backslash), combining
surrogate pairs as Python's decoder does. Lone surrogates (which Python
accepts into its looser `str` type but no Lean `Char` can carry, and which
no `json.dump` output contains) are rejected. -/
def parseEsc : List Char → Option (Char × List Char)
  | [] => none
  | c :: rest =>
      if c = '"' then some ('"', rest)
      else if c = '\\' then some ('\\', rest)
      else if c = '/' then some ('/', rest)
      else if c = 'b' then some (Char.ofNat 8, rest)
      else if c = 'f' then some (Char.ofNat 12, rest)
      else if c = 'n' then some ('\n', rest)
      else if c = 'r' then some ('\r', rest)
      else if c = 't' then some ('\t', rest)
      else if c = 'u' then
        match parseHex4 rest with
        | none => none
        | some (n1, r1) =>
            if 55296 ≤ n1 ∧ n1 ≤ 56319 then
              match r1 with
              | '\\' :: 'u' :: r2 =>
                  match parseHex4 r2 with
                  | none => none
                  | some (n2, r3) =>
                      if 56320 ≤ n2 ∧ n2 ≤ 57343 then
                        some (Char.ofNat (65536 + (n1 - 55296) * 1024 + (n2 - 56320)), r3)
                      else none
              | _ => none
            else if 56320 ≤ n1 ∧ n1 ≤ 57343 then none
            else some (Char.ofNat n1, r1)
      else none

/-- Read a string body up to the closing quote (strict mode: raw control
characters are rejected, as in `json.load`). Fuel decreases once per decoded
character. -/
def parseStrBody : Nat → List Char → Option (List Char × List Char)
  | 0, _ => none
  | _ + 1, [] => none
  | fuel + 1, c :: rest =>
      if c = '"' then some ([], rest)
      else if c = '\\' then
        match parseEsc rest with
        | none => none
        | some (ch, r1) =>
            match parseStrBody fuel r1 with
            | none => none
            | some (cs, r2) => some (ch :: cs, r2)
      else if c.toNat < 32 then none
      else
        match parseStrBody fuel rest with
        | none => none
        | some (cs, r2) => some (c :: cs, r2)

/-- Read an unsigned JSON integer (no leading zeros). The fractional and
exponent forms of the JSON grammar are not modelled: the app never writes a
float, so they occur in no document `save_grievances` produces. -/
def parseNatNum (s : List Char) : Option (Nat × List Char) :=
  match takeDigits s with
  | ([], _) => none
  | (d :: ds, r) =>
      if d = '0' ∧ ds ≠ [] then none
      else some (digitsToNat (d :: ds), r)

/-- Read a JSON integer with optional sign. -/
def parseIntFrom (s : List Char) : Option (JVal × List Char) :=
  match s with
  | '-' :: r =>
      match parseNatNum r with
      | none => none
      | some (n, r1) => some (.jint (-(n : Int)), r1)
  | _ =>
      match parseNatNum s with
      | none => none
      | some (n, r1) => some (.jint (n : Int), r1)

mutual
/-- Recursive-descent JSON value reader (the `json.load` grammar restricted
as documented at `parseNatNum`/`parseEsc`). Every reader spends one unit of
fuel per step, so a fuel of one more than the input length always suffices. -/
def parseVal : Nat → List Char → Option (JVal × List Char)
  | 0, _ => none
  | fuel + 1, s =>
      match skipWs s with
      | [] => none
      | c :: rest =>
          if c = 'n' then
            match rest with
            | 'u' :: 'l' :: 'l' :: r => some (.jnull, r)
            | _ => none
          else if c = 't' then
            match rest with
            | 'r' :: 'u' :: 'e' :: r => some (.jbool true, r)
            | _ => none
          else if c = 'f' then
            match rest with
            | 'a' :: 'l' :: 's' :: 'e' :: r => some (.jbool false, r)
            | _ => none
          else if c = '"' then
            match parseStrBody fuel rest with
            | none => none
            | some (cs, r) => some (.jstr cs, r)
          else if c = '[' then parseArr fuel rest
          else if c = '{' then parseObjStart fuel rest
          else if (c == '-') || isDigitChar c then parseIntFrom (c :: rest)
          else none

/-- After `[`: empty array or first item then the item loop. -/
def parseArr : Nat → List Char → Option (JVal × List Char)
  | 0, _ => none
  | fuel + 1, s =>
      match skipWs s with
      | ']' :: r => some (.jarr .anil, r)
      | s1 =>
          match parseVal fuel s1 with
          | none => none
          | some (v, r1) =>
              match parseArrRest fuel r1 with
              | none => none
              | some (xs, r2) => some (.jarr (.acons v xs), r2)

/-- After an array item: `,` and another item, or `]`. -/
def parseArrRest : Nat → List Char → Option (JArr × List Char)
  | 0, _ => none
  | fuel + 1, s =>
      match skipWs s with
      | ']' :: r => some (.anil, r)
      | ',' :: r =>
          match parseVal fuel r with
          | none => none
          | some (v, r1) =>
              match parseArrRest fuel r1 with
              | none => none
              | some (xs, r2) => some (.acons v xs, r2)
      | _ => none

/-- After `{`: empty object or first member then the member loop. -/
def parseObjStart : Nat → List Char → Option (JVal × List Char)
  | 0, _ => none
  | fuel + 1, s =>
      match skipWs s with
      | '}' :: r => some (.jobj .onil, r)
      | '"' :: r =>
          match parseStrBody fuel r with
          | none => none
          | some (k, r1) =>
              match skipWs r1 with
              | ':' :: r2 =>
                  match parseVal fuel r2 with
                  | none => none
                  | some (v, r3) =>
                      match parseObjRest fuel r3 with
                      | none => none
                      | some (fs, r4) => some (.jobj (.ocons k v fs), r4)
              | _ => none
      | _ => none

/-- After an object member: `,` and another member, or `}`. -/
def parseObjRest : Nat → List Char → Option (JObj × List Char)
  | 0, _ => none
  | fuel + 1, s =>
      match skipWs s with
      | '}' :: r => some (.onil, r)
      | ',' :: r =>
          match skipWs r with
          | '"' :: r1 =>
              match parseStrBody fuel r1 with
              | none => none
              | some (k, r2) =>
                  match skipWs r2 with
                  | ':' :: r3 =>
                      match parseVal fuel r3 with
                      | none => none
                      | some (v, r4) =>
                          match parseObjRest fuel r4 with
                          | none => none
                          | some (fs, r5) => some (.ocons k v fs, r5)
                  | _ => none
          | _ => none
      | _ => none
end

/-- Parse a whole document as `json.load` does: one value, then nothing but
trailing whitespace. -/
def parseDoc (s : List Char) : Option JVal :=
  match parseVal (s.length + 1) s with
  | none => none
  | some (v, r) => if skipWs r = [] then some v else none

/-- Source `save_grievances`: the persisted document is the `json.dump` of
the collection with `indent=4` (written whole, replacing the file). -/
def save_grievances (v : JVal) : List Char := printV 0 v

/-- Source `load_grievances`: the file-system state is `none` while
`grievances.json` does not exist (then the function returns `[]`), and
`some doc` once it does; a document `json.load` cannot parse raises, which
the function does not catch (`Except.error`). -/
def load_grievances (file : Option (List Char)) : Except Unit JVal :=
  match file with
  | none => .ok (.jarr .anil)
  | some doc =>
      match parseDoc doc with
      | some v => .ok v
      | none => .error ()

mutual
/-- Fuel sufficient for `parseVal` on the printed form of `v`. -/
def fuelV : JVal → Nat
  | .jnull => 1
  | .jbool _ => 1
  | .jint _ => 1
  | .jstr s => s.length + 2
  | .jarr xs => fuelA xs + 2
  | .jobj fs => fuelO fs + 2

/-- Fuel sufficient for `parseArrRest` on the printed item tail. -/
def fuelA : JArr → Nat
  | .anil => 1
  | .acons v xs => fuelV v + fuelA xs + 1

/-- Fuel sufficient for `parseObjRest` on the printed member tail. -/
def fuelO : JObj → Nat
  | .onil => 1
  | .ocons k v fs => k.length + 2 + fuelV v + fuelO fs
end

/-- True when the list does not begin with a digit (so a preceding number
literal cannot be extended by it). -/
def headNotDigit : List Char → Prop
  | [] => True
  | c :: _ => isDigitChar c = false

/-- The spec's description of the classifier: the first table entry (via
`List.find?`) one of whose keywords is contained in the lowercased text,
else "Other". -/
def categorizeSpec (text : String) : String :=
  match categories.find? (fun p => p.2.any (fun k => kwIn k text)) with
  | some p => p.1
  | none => "Other"

/-- Char.ofNat inverts toNat on valid code points. -/
theorem toNat_ofNat_valid (n : Nat) (h : n.isValidChar) : (Char.ofNat n).toNat = n := by
  simp [Char.ofNat, h, Char.ofNatAux, Char.toNat, UInt32.toNat, BitVec.toNat_ofNatLt]

/-- A character's code point avoids the surrogate range and the bound. -/
theorem char_toNat_valid (c : Char) :
    c.toNat < 55296 ∨ (57343 < c.toNat ∧ c.toNat < 1114112) := c.valid

/-- Two characters with the same code point are equal. -/
theorem char_eq_of_toNat (a b : Char) (h : a.toNat = b.toNat) : a = b := by
  have := congrArg Char.ofNat h
  rwa [Char.ofNat_toNat, Char.ofNat_toNat] at this

/-- Leading whitespace before any suffix is dropped. -/
theorem skipWs_append (w : List Char) (s : List Char)
    (h : ∀ c ∈ w, isWsChar c = true) : skipWs (w ++ s) = skipWs s := by
  induction w with
  | nil => rfl
  | cons c t ih =>
      have hc : isWsChar c = true := h c (List.mem_cons_self c t)
      simp only [List.cons_append, skipWs, hc, if_true]
      exact ih fun x hx => h x (List.mem_cons_of_mem c hx)

/-- Indentation is all whitespace. -/
theorem ind_ws (d : Nat) : ∀ c ∈ ind d, isWsChar c = true := by
  intro c hc
  rw [ind, List.mem_replicate] at hc
  rw [hc.2]
  decide

/-- The newline-plus-indent separator is all whitespace. -/
theorem sep_ws (d : Nat) : ∀ c ∈ '\n' :: ind d, isWsChar c = true := by
  intro c hc
  rcases List.mem_cons.mp hc with h | h
  · rw [h]; decide
  · exact ind_ws d c h

/-- skipWs leaves a non-whitespace-headed list alone. -/
theorem skipWs_cons_not (c : Char) (t : List Char) (h : isWsChar c = false) :
    skipWs (c :: t) = c :: t := by
  simp [skipWs, h]

/-- parseVal ignores leading whitespace. -/
theorem parseVal_ws (fuel : Nat) (w s : List Char)
    (h : ∀ c ∈ w, isWsChar c = true) :
    parseVal fuel (w ++ s) = parseVal fuel s := by
  cases fuel with
  | zero => rfl
  | succ f => simp only [parseVal, skipWs_append w s h]

/-- A digit is not whitespace, none of the value dispatch characters, and
not a closing bracket. -/
theorem digit_facts (c : Char) (h : isDigitChar c = true) :
    isWsChar c = false ∧ c ≠ 'n' ∧ c ≠ 't' ∧ c ≠ 'f' ∧ c ≠ '"' ∧ c ≠ '[' ∧
      c ≠ '{' ∧ c ≠ ']' ∧ c ≠ ',' ∧ c ≠ '-' ∧ c ≠ '}' := by
  simp only [isDigitChar, Bool.and_eq_true, decide_eq_true_eq] at h
  refine ⟨?_, ?_, ?_, ?_, ?_, ?_, ?_, ?_, ?_, ?_, ?_⟩
  · simp only [isWsChar, Bool.or_eq_false_iff, decide_eq_false_iff_not]
    omega
  all_goals intro he; rw [he] at h; revert h; decide

/-- natDigitsCore with enough fuel computes digitsSpec. -/
theorem natDigitsCore_eq : ∀ (fuel n : Nat) (acc : List Char), n < fuel →
    natDigitsCore fuel n acc = digitsSpec n ++ acc := by
  intro fuel
  induction fuel with
  | zero => intro n acc h; omega
  | succ f ih =>
      intro n acc h
      by_cases h10 : n < 10
      · rw [natDigitsCore, if_pos h10, digitsSpec, if_pos h10]
        rfl
      · rw [natDigitsCore, if_neg h10, digitsSpec, if_neg h10,
          ih (n / 10) _ (by omega), List.append_assoc]
        rfl

/-- natDigits agrees with its specification view. -/
theorem natDigits_eq (n : Nat) : natDigits n = digitsSpec n := by
  rw [natDigits, natDigitsCore_eq (n + 1) n [] (Nat.lt_succ_self n), List.append_nil]

/-- digitsSpec is never empty. -/
theorem digitsSpec_ne_nil (n : Nat) : digitsSpec n ≠ [] := by
  rw [digitsSpec]
  by_cases h : n < 10
  · simp [h]
  · simp [h]

/-- Every character of digitsSpec is a digit. -/
theorem digitsSpec_digits (n : Nat) : ∀ c ∈ digitsSpec n, isDigitChar c = true := by
  induction n using Nat.strong_induction_on with
  | _ n ih =>
      intro c hc
      rw [digitsSpec] at hc
      by_cases h : n < 10
      · rw [if_pos h, List.mem_singleton] at hc
        rw [hc]
        simp only [isDigitChar, digitChar, Bool.and_eq_true, decide_eq_true_eq]
        constructor <;> rw [toNat_ofNat_valid _ (Or.inl (by omega))] <;> omega
      · rw [if_neg h, List.mem_append] at hc
        rcases hc with hc | hc
        · exact ih (n / 10) (Nat.div_lt_self (by omega) (by omega)) c hc
        · rw [List.mem_singleton] at hc
          rw [hc]
          simp only [isDigitChar, digitChar, Bool.and_eq_true, decide_eq_true_eq]
          have h10 : n % 10 < 10 := Nat.mod_lt n (by omega)
          constructor <;> rw [toNat_ofNat_valid _ (Or.inl (by omega))] <;> omega

/-- The leading digit of a nonzero number is not 0. -/
theorem digitsSpec_head_ne_zero :
    ∀ n, n ≠ 0 → ∀ d t, digitsSpec n = d :: t → d ≠ '0' := by
  intro n
  induction n using Nat.strong_induction_on with
  | _ n ih =>
      intro hn d t hd
      rw [digitsSpec] at hd
      by_cases h : n < 10
      · rw [if_pos h] at hd
        obtain ⟨hd1, _⟩ := List.cons.inj hd
        intro he
        rw [he] at hd1
        have h2 := congrArg Char.toNat hd1
        rw [digitChar, toNat_ofNat_valid _ (Or.inl (by omega))] at h2
        have h3 : ('0' : Char).toNat = 48 := rfl
        rw [h3] at h2
        omega
      · rw [if_neg h] at hd
        obtain ⟨d0, t0, h0⟩ := List.exists_cons_of_ne_nil (digitsSpec_ne_nil (n / 10))
        rw [h0, List.cons_append] at hd
        obtain ⟨hd1, _⟩ := List.cons.inj hd
        rw [← hd1]
        exact ih (n / 10) (Nat.div_lt_self (by omega) (by omega)) (by omega) d0 t0 h0

/-- takeDigits splits a digit prefix exactly. -/
theorem takeDigits_append : ∀ (ds rest : List Char),
    (∀ c ∈ ds, isDigitChar c = true) → headNotDigit rest →
    takeDigits (ds ++ rest) = (ds, rest) := by
  intro ds
  induction ds with
  | nil =>
      intro rest _ hr
      cases rest with
      | nil => rfl
      | cons c t =>
          simp only [headNotDigit] at hr
          simp [takeDigits, hr]
  | cons c t ih =>
      intro rest h hr
      have hc : isDigitChar c = true := h c (List.mem_cons_self c t)
      have ht := ih rest (fun x hx => h x (List.mem_cons_of_mem c hx)) hr
      simp only [List.cons_append, takeDigits, hc, if_true, List.append_eq]
      rw [ht]

/-- Reading back the digits of n yields n. -/
theorem digitsToNat_digitsSpec (n : Nat) : digitsToNat (digitsSpec n) = n := by
  induction n using Nat.strong_induction_on with
  | _ n ih =>
      rw [digitsSpec]
      by_cases h : n < 10
      · rw [if_pos h]
        simp only [digitsToNat, List.foldl_cons, List.foldl_nil, digitChar]
        rw [toNat_ofNat_valid _ (Or.inl (by omega))]
        omega
      · rw [if_neg h]
        simp only [digitsToNat, List.foldl_append, List.foldl_cons, List.foldl_nil]
        have her : (digitsSpec (n / 10)).foldl
            (fun acc c => acc * 10 + (c.toNat - 48)) 0 = n / 10 :=
          ih (n / 10) (Nat.div_lt_self (by omega) (by omega))
        rw [her, digitChar, toNat_ofNat_valid _ (Or.inl (by omega))]
        omega

/-- parseNatNum reads back exactly the digits natDigits printed. -/
theorem parseNatNum_natDigits (n : Nat) (rest : List Char) (hr : headNotDigit rest) :
    parseNatNum (natDigits n ++ rest) = some (n, rest) := by
  rw [natDigits_eq]
  obtain ⟨d, t, hdt⟩ := List.exists_cons_of_ne_nil (digitsSpec_ne_nil n)
  have hall : ∀ c ∈ d :: t, isDigitChar c = true := by
    rw [← hdt]; exact digitsSpec_digits n
  have hcond : ¬(d = '0' ∧ t ≠ []) := by
    rcases eq_or_ne t [] with h | h
    · simp [h]
    · have hn0 : n ≠ 0 := by
        intro h0
        rw [h0, digitsSpec, if_pos (by omega)] at hdt
        obtain ⟨_, h2⟩ := List.cons.inj hdt.symm
        exact h h2
      exact fun hc => digitsSpec_head_ne_zero n hn0 d t hdt hc.1
  rw [hdt]
  simp only [parseNatNum, takeDigits_append (d :: t) rest hall hr, if_neg hcond]
  rw [← hdt, digitsToNat_digitsSpec]

/-- parseIntFrom reads back exactly what dumpInt printed. -/
theorem parseIntFrom_dumpInt (n : Int) (rest : List Char) (hr : headNotDigit rest) :
    parseIntFrom (dumpInt n ++ rest) = some (.jint n, rest) := by
  by_cases hn : n < 0
  · have he : dumpInt n ++ rest = '-' :: (natDigits n.natAbs ++ rest) := by
      rw [dumpInt, if_pos hn, List.cons_append]
    rw [he]
    simp only [parseIntFrom, parseNatNum_natDigits n.natAbs rest hr]
    have : (-(n.natAbs : Int)) = n := by omega
    rw [this]
  · obtain ⟨d, t, hdt⟩ := List.exists_cons_of_ne_nil (digitsSpec_ne_nil n.natAbs)
    have hd : isDigitChar d = true :=
      digitsSpec_digits n.natAbs d (hdt ▸ List.mem_cons_self d t)
    have he : dumpInt n ++ rest = d :: (t ++ rest) := by
      rw [dumpInt, if_neg hn, natDigits_eq, hdt, List.cons_append]
    have hnum : parseNatNum (d :: (t ++ rest)) = some (n.natAbs, rest) := by
      have := parseNatNum_natDigits n.natAbs rest hr
      rwa [natDigits_eq, hdt, List.cons_append] at this
    obtain ⟨_, _, _, _, _, _, _, _, _, hm, _⟩ := digit_facts d hd
    rw [he]
    simp only [parseIntFrom]
    split
    · rename_i r heq
      obtain ⟨h1, _⟩ := List.cons.inj heq
      exact absurd h1 hm
    · rw [hnum]
      have h2 : ((n.natAbs : Int)) = n := by omega
      show some (JVal.jint (n.natAbs : Int), rest) = some (JVal.jint n, rest)
      rw [h2]

/-- parseVal reads back exactly what dumpInt printed. -/
theorem parseVal_dumpInt (f : Nat) (n : Int) (rest : List Char)
    (hr : headNotDigit rest) :
    parseVal (f + 1) (dumpInt n ++ rest) = some (.jint n, rest) := by
  by_cases hn : n < 0
  · have he : dumpInt n ++ rest = '-' :: (natDigits n.natAbs ++ rest) := by
      rw [dumpInt, if_pos hn, List.cons_append]
    rw [he]
    have h1 : parseVal (f + 1) ('-' :: (natDigits n.natAbs ++ rest))
        = parseIntFrom ('-' :: (natDigits n.natAbs ++ rest)) := rfl
    rw [h1, ← he]
    exact parseIntFrom_dumpInt n rest hr
  · obtain ⟨d, t, hdt⟩ := List.exists_cons_of_ne_nil (digitsSpec_ne_nil n.natAbs)
    have hd : isDigitChar d = true :=
      digitsSpec_digits n.natAbs d (hdt ▸ List.mem_cons_self d t)
    have he : dumpInt n ++ rest = d :: (t ++ rest) := by
      rw [dumpInt, if_neg hn, natDigits_eq, hdt, List.cons_append]
    obtain ⟨hws, hn', ht', hf', hq', hb', hc', _, _, _, _⟩ := digit_facts d hd
    rw [he]
    simp only [parseVal, skipWs_cons_not d _ hws]
    rw [if_neg hn', if_neg ht', if_neg hf', if_neg hq', if_neg hb', if_neg hc',
      if_pos (by rw [hd]; simp), ← he]
    exact parseIntFrom_dumpInt n rest hr

/-- escBody distributes over cons. -/
theorem escBody_cons (c : Char) (cs : List Char) :
    escBody (c :: cs) = escChar c ++ escBody cs := by
  simp [escBody]

/-- hexVal inverts hexDigit on one hex digit. -/
theorem hexVal_hexDigit (k : Nat) (h : k < 16) : hexVal (hexDigit k) = some k := by
  have hall : ∀ m < 16, hexVal (hexDigit m) = some m := by decide
  exact hall k h

/-- parseHex4 inverts hex4 below 65536. -/
theorem parseHex4_hex4 (n : Nat) (rest : List Char) (h : n < 65536) :
    parseHex4 (hex4 n ++ rest) = some (n, rest) := by
  have h1 : n / 4096 % 16 < 16 := Nat.mod_lt _ (by omega)
  have h2 : n / 256 % 16 < 16 := Nat.mod_lt _ (by omega)
  have h3 : n / 16 % 16 < 16 := Nat.mod_lt _ (by omega)
  have h4 : n % 16 < 16 := Nat.mod_lt _ (by omega)
  simp only [hex4, List.cons_append, List.nil_append, parseHex4,
    hexVal_hexDigit _ h1, hexVal_hexDigit _ h2, hexVal_hexDigit _ h3,
    hexVal_hexDigit _ h4]
  have heq : (((n / 4096 % 16) * 16 + n / 256 % 16) * 16 + n / 16 % 16) * 16
      + n % 16 = n := by omega
  rw [heq]

/-- parseEsc reads back a BMP unicode escape. -/
theorem parseEsc_u (n : Nat) (T : List Char) (hlt : n < 65536)
    (hsur : n < 55296 ∨ 57343 < n) :
    parseEsc ('u' :: (hex4 n ++ T)) = some (Char.ofNat n, T) := by
  simp only [parseEsc, if_true]
  repeat rw [if_neg (by decide)]
  try rw [if_pos (rfl : ('u' : Char) = 'u')]
  simp only [parseHex4_hex4 n T hlt]
  rw [if_neg (by omega), if_neg (by omega)]

/-- parseEsc reads back a surrogate-pair escape. -/
theorem parseEsc_u_pair (n : Nat) (T : List Char) (h1 : 65536 ≤ n)
    (h2 : n < 1114112) :
    parseEsc ('u' :: (hex4 (55296 + (n - 65536) / 1024)
        ++ ('\\' :: 'u' :: (hex4 (56320 + (n - 65536) % 1024) ++ T))))
      = some (Char.ofNat n, T) := by
  have hhi : 55296 + (n - 65536) / 1024 < 65536 := by omega
  have hlo : 56320 + (n - 65536) % 1024 < 65536 := by
    have := Nat.mod_lt (n - 65536) (show 0 < 1024 by omega)
    omega
  simp only [parseEsc, if_true]
  repeat rw [if_neg (by decide)]
  try rw [if_pos (rfl : ('u' : Char) = 'u')]
  simp only [parseHex4_hex4 _ _ hhi]
  rw [if_pos (by omega)]
  simp only [parseHex4_hex4 _ _ hlo]
  rw [if_pos (by omega)]
  have harg : 65536 + (55296 + (n - 65536) / 1024 - 55296) * 1024
      + (56320 + (n - 65536) % 1024 - 56320) = n := by
    have := Nat.div_add_mod (n - 65536) 1024
    omega
  rw [harg]

/-- One parseStrBody step through an escape sequence. -/
theorem parseStrBody_esc_step (f : Nat) (X T : List Char) (ch : Char)
    (h : parseEsc X = some (ch, T)) :
    parseStrBody (f + 1) ('\\' :: X) =
      (match parseStrBody f T with
       | none => none
       | some (cs, r2) => some (ch :: cs, r2)) := by
  simp only [parseStrBody, if_true, h]
  all_goals repeat rw [if_neg (by decide)]

/-- parseStrBody reads back exactly the escaped string escBody printed. -/
theorem parseStrBody_esc : ∀ (s : List Char) (f : Nat) (rest : List Char),
    s.length ≤ f →
    parseStrBody (f + 1) (escBody s ++ ('"' :: rest)) = some (s, rest) := by
  intro s
  induction s with
  | nil => intro f rest _; rfl
  | cons c cs ih =>
      intro f rest hf
      simp only [List.length_cons] at hf
      obtain ⟨f1, rfl⟩ : ∃ f1, f = f1 + 1 := ⟨f - 1, by omega⟩
      have hih : parseStrBody (f1 + 1) (escBody cs ++ ('"' :: rest))
          = some (cs, rest) := ih f1 rest (by omega)
      rw [escBody_cons, List.append_assoc]
      set T0 := escBody cs ++ ('"' :: rest) with hT0
      by_cases h1 : c = '"'
      · subst h1
        rw [show escChar '"' = ['\\', '"'] from rfl]
        simp only [List.cons_append, List.nil_append]
        rw [parseStrBody_esc_step (f1 + 1) ('"' :: T0) T0 '"' rfl, hih]
      · by_cases h2 : c = '\\'
        · subst h2
          rw [show escChar '\\' = ['\\', '\\'] from rfl]
          simp only [List.cons_append, List.nil_append]
          rw [parseStrBody_esc_step (f1 + 1) ('\\' :: T0) T0 '\\' rfl, hih]
        · by_cases h3 : c = '\n'
          · subst h3
            rw [show escChar '\n' = ['\\', 'n'] from rfl]
            simp only [List.cons_append, List.nil_append]
            rw [parseStrBody_esc_step (f1 + 1) ('n' :: T0) T0 '\n' rfl, hih]
          · by_cases h4 : c = '\r'
            · subst h4
              rw [show escChar '\r' = ['\\', 'r'] from rfl]
              simp only [List.cons_append, List.nil_append]
              rw [parseStrBody_esc_step (f1 + 1) ('r' :: T0) T0 '\r' rfl, hih]
            · by_cases h5 : c = '\t'
              · subst h5
                rw [show escChar '\t' = ['\\', 't'] from rfl]
                simp only [List.cons_append, List.nil_append]
                rw [parseStrBody_esc_step (f1 + 1) ('t' :: T0) T0 '\t' rfl, hih]
              · by_cases h6 : c.toNat = 8
                · have hesc : escChar c = ['\\', 'b'] := by
                    rw [escChar, if_neg h1, if_neg h2, if_neg h3, if_neg h4,
                      if_neg h5, if_pos h6]
                  have hc : Char.ofNat 8 = c :=
                    char_eq_of_toNat _ _
                      (by rw [toNat_ofNat_valid 8 (Or.inl (by omega)), h6])
                  rw [hesc]
                  simp only [List.cons_append, List.nil_append]
                  rw [parseStrBody_esc_step (f1 + 1) ('b' :: T0) T0
                      (Char.ofNat 8) rfl, hih, hc]
                · by_cases h7 : c.toNat = 12
                  · have hesc : escChar c = ['\\', 'f'] := by
                      rw [escChar, if_neg h1, if_neg h2, if_neg h3, if_neg h4,
                        if_neg h5, if_neg h6, if_pos h7]
                    have hc : Char.ofNat 12 = c :=
                      char_eq_of_toNat _ _
                        (by rw [toNat_ofNat_valid 12 (Or.inl (by omega)), h7])
                    rw [hesc]
                    simp only [List.cons_append, List.nil_append]
                    rw [parseStrBody_esc_step (f1 + 1) ('f' :: T0) T0
                        (Char.ofNat 12) rfl, hih, hc]
                  · by_cases h8 : 32 ≤ c.toNat ∧ c.toNat ≤ 126
                    · have hesc : escChar c = [c] := by
                        rw [escChar, if_neg h1, if_neg h2, if_neg h3, if_neg h4,
                          if_neg h5, if_neg h6, if_neg h7, if_pos h8]
                      rw [hesc, List.singleton_append]
                      simp only [parseStrBody]
                      rw [if_neg h1, if_neg h2, if_neg (by omega), hih]
                    · by_cases h9 : c.toNat < 65536
                      · have hesc : escChar c = '\\' :: 'u' :: hex4 c.toNat := by
                          rw [escChar, if_neg h1, if_neg h2, if_neg h3, if_neg h4,
                            if_neg h5, if_neg h6, if_neg h7, if_neg h8, if_pos h9]
                        have hsur : c.toNat < 55296 ∨ 57343 < c.toNat := by
                          rcases char_toNat_valid c with h | h
                          · exact Or.inl h
                          · exact Or.inr h.1
                        have hpe := parseEsc_u c.toNat T0 h9 hsur
                        rw [Char.ofNat_toNat] at hpe
                        rw [hesc]
                        simp only [List.cons_append]
                        rw [parseStrBody_esc_step (f1 + 1)
                            ('u' :: (hex4 c.toNat ++ T0)) T0 c hpe, hih]
                      · have hv : c.toNat < 1114112 := by
                          rcases char_toNat_valid c with h | h
                          · omega
                          · exact h.2
                        have hesc : escChar c =
                            ('\\' :: 'u' :: hex4 (55296 + (c.toNat - 65536) / 1024))
                            ++ ('\\' :: 'u' :: hex4 (56320 + (c.toNat - 65536) % 1024)) := by
                          rw [escChar, if_neg h1, if_neg h2, if_neg h3, if_neg h4,
                            if_neg h5, if_neg h6, if_neg h7, if_neg h8, if_neg h9]
                        have hpe := parseEsc_u_pair c.toNat T0 (by omega) hv
                        rw [Char.ofNat_toNat] at hpe
                        rw [hesc]
                        simp only [List.cons_append, List.append_assoc]
                        rw [parseStrBody_esc_step (f1 + 1)
                            ('u' :: (hex4 (55296 + (c.toNat - 65536) / 1024)
                              ++ ('\\' :: 'u' :: (hex4 (56320 + (c.toNat - 65536) % 1024)
                                ++ T0)))) T0 c hpe, hih]

/-- Every printed value starts with a non-whitespace character other than a
closing bracket. -/
theorem printV_head (d : Nat) (v : JVal) :
    ∃ c t, printV d v = c :: t ∧ isWsChar c = false ∧ c ≠ ']' := by
  cases v with
  | jnull => exact ⟨'n', _, rfl, by decide, by decide⟩
  | jbool b =>
      cases b with
      | false => exact ⟨'f', _, rfl, by decide, by decide⟩
      | true => exact ⟨'t', _, rfl, by decide, by decide⟩
  | jint n =>
      by_cases hn : n < 0
      · exact ⟨'-', _, by rw [printV, dumpInt, if_pos hn], by decide, by decide⟩
      · obtain ⟨dg, t, hdt⟩ :=
          List.exists_cons_of_ne_nil (digitsSpec_ne_nil n.natAbs)
        have hd : isDigitChar dg = true :=
          digitsSpec_digits _ _ (hdt ▸ List.mem_cons_self dg t)
        obtain ⟨hws, _, _, _, _, _, _, hrb, _, _, _⟩ := digit_facts dg hd
        exact ⟨dg, t, by rw [printV, dumpInt, if_neg hn, natDigits_eq, hdt],
          hws, hrb⟩
  | jstr s => exact ⟨'"', _, rfl, by decide, by decide⟩
  | jarr xs =>
      cases xs with
      | anil => exact ⟨'[', _, rfl, by decide, by decide⟩
      | acons v ys => exact ⟨'[', _, rfl, by decide, by decide⟩
  | jobj fs =>
      cases fs with
      | onil => exact ⟨'{', _, rfl, by decide, by decide⟩
      | ocons k v gs => exact ⟨'{', _, rfl, by decide, by decide⟩

/-- The printed item tail (followed by a separator) never starts with a digit. -/
theorem headNotDigit_printANext (d : Nat) (xs : JArr) (z : List Char) :
    headNotDigit (printANext d xs ++ '\n' :: z) := by
  cases xs with
  | anil =>
      show isDigitChar '\n' = false
      decide
  | acons v ys =>
      show isDigitChar ',' = false
      decide

/-- The printed member tail (followed by a separator) never starts with a digit. -/
theorem headNotDigit_printONext (d : Nat) (fs : JObj) (z : List Char) :
    headNotDigit (printONext d fs ++ '\n' :: z) := by
  cases fs with
  | onil =>
      show isDigitChar '\n' = false
      decide
  | ocons k v gs =>
      show isDigitChar ',' = false
      decide

/-- Whitespace characters are not digits. -/
theorem ws_not_digit (c : Char) (h : isWsChar c = true) : isDigitChar c = false := by
  simp only [isWsChar, Bool.or_eq_true, decide_eq_true_eq] at h
  simp only [isDigitChar]
  rw [decide_eq_false (by omega : ¬48 ≤ c.toNat)]
  rfl

/-- A whitespace prefix preserves headNotDigit. -/
theorem headNotDigit_ws_append (w z : List Char)
    (hw : ∀ c ∈ w, isWsChar c = true) (hz : headNotDigit z) :
    headNotDigit (w ++ z) := by
  cases w with
  | nil => simpa using hz
  | cons c t =>
      show isDigitChar c = false
      exact ws_not_digit c (hw c (List.mem_cons_self c t))

/-- The printed item tail followed by whitespace and the closing bracket never
starts with a digit. -/
theorem headNotDigit_printANext_w (d : Nat) (ys : JArr) (w rest : List Char)
    (hw : ∀ c ∈ w, isWsChar c = true) :
    headNotDigit (printANext d ys ++ (w ++ (']' :: rest))) := by
  cases ys with
  | anil =>
      simp only [printANext, List.nil_append]
      exact headNotDigit_ws_append w _ hw (by show isDigitChar ']' = false; decide)
  | acons a b =>
      show isDigitChar ',' = false
      decide

/-- The printed member tail followed by whitespace and the closing brace never
starts with a digit. -/
theorem headNotDigit_printONext_w (d : Nat) (gs : JObj) (w rest : List Char)
    (hw : ∀ c ∈ w, isWsChar c = true) :
    headNotDigit (printONext d gs ++ (w ++ ('}' :: rest))) := by
  cases gs with
  | onil =>
      simp only [printONext, List.nil_append]
      exact headNotDigit_ws_append w _ hw (by show isDigitChar '}' = false; decide)
  | ocons k a b =>
      show isDigitChar ',' = false
      decide

mutual
/-- parseVal reads back exactly what printV printed (for any indent depth,
any sufficient fuel, and any non-digit-headed remainder). -/
theorem parse_printV : ∀ (v : JVal) (d fuel : Nat) (rest : List Char),
    fuelV v ≤ fuel → headNotDigit rest →
    parseVal fuel (printV d v ++ rest) = some (v, rest)
  | .jnull, d, fuel, rest, hf, hr => by
      simp only [fuelV] at hf
      obtain ⟨f, rfl⟩ : ∃ f, fuel = f + 1 := ⟨fuel - 1, by omega⟩
      rfl
  | .jbool true, d, fuel, rest, hf, hr => by
      simp only [fuelV] at hf
      obtain ⟨f, rfl⟩ : ∃ f, fuel = f + 1 := ⟨fuel - 1, by omega⟩
      rfl
  | .jbool false, d, fuel, rest, hf, hr => by
      simp only [fuelV] at hf
      obtain ⟨f, rfl⟩ : ∃ f, fuel = f + 1 := ⟨fuel - 1, by omega⟩
      rfl
  | .jint n, d, fuel, rest, hf, hr => by
      simp only [fuelV] at hf
      obtain ⟨f, rfl⟩ : ∃ f, fuel = f + 1 := ⟨fuel - 1, by omega⟩
      show parseVal (f + 1) (dumpInt n ++ rest) = some (.jint n, rest)
      exact parseVal_dumpInt f n rest hr
  | .jstr s, d, fuel, rest, hf, hr => by
      simp only [fuelV] at hf
      obtain ⟨f1, rfl⟩ : ∃ f1, fuel = f1 + 1 + 1 := ⟨fuel - 2, by omega⟩
      have hal : printV d (.jstr s) ++ rest
          = '"' :: (escBody s ++ ('"' :: rest)) := by
        show dumpStr s ++ rest = _
        rw [dumpStr, List.cons_append, List.append_assoc, List.singleton_append]
      rw [hal]
      have hred : parseVal (f1 + 1 + 1) ('"' :: (escBody s ++ ('"' :: rest)))
          = (match parseStrBody (f1 + 1) (escBody s ++ ('"' :: rest)) with
             | none => none
             | some (cs, r) => some (JVal.jstr cs, r)) := rfl
      rw [hred, parseStrBody_esc s f1 rest (by omega)]
  | .jarr .anil, d, fuel, rest, hf, hr => by
      simp only [fuelV, fuelA] at hf
      obtain ⟨f, rfl⟩ : ∃ f, fuel = f + 1 + 1 := ⟨fuel - 2, by omega⟩
      rfl
  | .jarr (.acons v xs), d, fuel, rest, hf, hr => by
      simp only [fuelV, fuelA] at hf
      obtain ⟨f, rfl⟩ : ∃ f, fuel = f + 1 + 1 := ⟨fuel - 2, by omega⟩
      have hal : printV d (.jarr (.acons v xs)) ++ rest
          = '[' :: ('\n' :: (ind (d + 1) ++ (printV (d + 1) v
              ++ (printANext (d + 1) xs
                ++ ('\n' :: (ind d ++ (']' :: rest))))))) := by
        show ('[' :: '\n' :: (ind (d + 1) ++ printV (d + 1) v
            ++ printANext (d + 1) xs ++ '\n' :: (ind d ++ [']']))) ++ rest = _
        simp [List.append_assoc]
      rw [hal]
      have hs : ∀ X, parseVal (f + 1 + 1) ('[' :: X) = parseArr (f + 1) X :=
        fun _ => rfl
      rw [hs]
      simp only [parseArr]
      obtain ⟨c, t, hct, hcw, hcb⟩ := printV_head (d + 1) v
      have hskip : skipWs ('\n' :: (ind (d + 1) ++ (printV (d + 1) v
          ++ (printANext (d + 1) xs ++ ('\n' :: (ind d ++ (']' :: rest)))))))
          = c :: (t ++ (printANext (d + 1) xs
              ++ ('\n' :: (ind d ++ (']' :: rest))))) := by
        rw [show ('\n' :: (ind (d + 1) ++ (printV (d + 1) v
            ++ (printANext (d + 1) xs ++ ('\n' :: (ind d ++ (']' :: rest)))))))
            = ('\n' :: ind (d + 1)) ++ (printV (d + 1) v
              ++ (printANext (d + 1) xs ++ ('\n' :: (ind d ++ (']' :: rest)))))
            from by simp,
          skipWs_append _ _ (sep_ws (d + 1)), hct, List.cons_append,
          skipWs_cons_not c _ hcw]
      rw [hskip]
      split
      · rename_i r heq
        obtain ⟨h1, _⟩ := List.cons.inj heq
        exact absurd h1 hcb
      · have hback : c :: (t ++ (printANext (d + 1) xs
            ++ ('\n' :: (ind d ++ (']' :: rest)))))
            = printV (d + 1) v ++ (printANext (d + 1) xs
              ++ ('\n' :: (ind d ++ (']' :: rest)))) := by
          rw [hct, List.cons_append]
        rw [hback,
          parse_printV v (d + 1) f _ (by omega)
            (headNotDigit_printANext (d + 1) xs _)]
        have ha := parse_printA xs (d + 1) f ('\n' :: ind d) rest
          (by omega) (sep_ws d)
        simp only [List.cons_append] at ha
        simp only [ha]
  | .jobj .onil, d, fuel, rest, hf, hr => by
      simp only [fuelV, fuelO] at hf
      obtain ⟨f, rfl⟩ : ∃ f, fuel = f + 1 + 1 := ⟨fuel - 2, by omega⟩
      rfl
  | .jobj (.ocons k v fs), d, fuel, rest, hf, hr => by
      simp only [fuelV, fuelO] at hf
      obtain ⟨f, rfl⟩ : ∃ f, fuel = f + 1 + 1 := ⟨fuel - 2, by omega⟩
      have hal : printV d (.jobj (.ocons k v fs)) ++ rest
          = '{' :: ('\n' :: (ind (d + 1) ++ ('"' :: (escBody k
              ++ ('"' :: (':' :: (' ' :: (printV (d + 1) v
                ++ (printONext (d + 1) fs
                  ++ ('\n' :: (ind d ++ ('}' :: rest)))))))))))) := by
        show ('{' :: '\n' :: (ind (d + 1) ++ dumpStr k
            ++ ':' :: ' ' :: (printV (d + 1) v ++ printONext (d + 1) fs
              ++ '\n' :: (ind d ++ ['}'])))) ++ rest = _
        simp [dumpStr, List.append_assoc]
      rw [hal]
      have hs : ∀ X, parseVal (f + 1 + 1) ('{' :: X) = parseObjStart (f + 1) X :=
        fun _ => rfl
      rw [hs]
      simp only [parseObjStart]
      have hskip : skipWs ('\n' :: (ind (d + 1) ++ ('"' :: (escBody k
          ++ ('"' :: (':' :: (' ' :: (printV (d + 1) v
            ++ (printONext (d + 1) fs ++ ('\n' :: (ind d ++ ('}' :: rest))))))))))))
          = '"' :: (escBody k ++ ('"' :: (':' :: (' ' :: (printV (d + 1) v
              ++ (printONext (d + 1) fs
                ++ ('\n' :: (ind d ++ ('}' :: rest))))))))) := by
        rw [show ('\n' :: (ind (d + 1) ++ ('"' :: (escBody k
            ++ ('"' :: (':' :: (' ' :: (printV (d + 1) v
              ++ (printONext (d + 1) fs
                ++ ('\n' :: (ind d ++ ('}' :: rest))))))))))))
            = ('\n' :: ind (d + 1)) ++ ('"' :: (escBody k
              ++ ('"' :: (':' :: (' ' :: (printV (d + 1) v
                ++ (printONext (d + 1) fs
                  ++ ('\n' :: (ind d ++ ('}' :: rest))))))))))
            from by simp,
          skipWs_append _ _ (sep_ws (d + 1)),
          skipWs_cons_not '"' _ (by decide)]
      rw [hskip]
      have hkey : parseStrBody f (escBody k
          ++ ('"' :: (':' :: (' ' :: (printV (d + 1) v
            ++ (printONext (d + 1) fs ++ ('\n' :: (ind d ++ ('}' :: rest)))))))))
          = some (k, ':' :: (' ' :: (printV (d + 1) v
              ++ (printONext (d + 1) fs ++ ('\n' :: (ind d ++ ('}' :: rest))))))) := by
        obtain ⟨f1, rfl⟩ : ∃ f1, f = f1 + 1 := ⟨f - 1, by omega⟩
        exact parseStrBody_esc k f1 _ (by omega)
      simp only [hkey]
      rw [skipWs_cons_not ':' _ (by decide)]
      have hw : parseVal f (' ' :: (printV (d + 1) v
          ++ (printONext (d + 1) fs ++ ('\n' :: (ind d ++ ('}' :: rest))))))
          = some (v, printONext (d + 1) fs ++ ('\n' :: (ind d ++ ('}' :: rest)))) := by
        rw [show (' ' :: (printV (d + 1) v ++ (printONext (d + 1) fs
            ++ ('\n' :: (ind d ++ ('}' :: rest))))))
            = [' '] ++ (printV (d + 1) v ++ (printONext (d + 1) fs
              ++ ('\n' :: (ind d ++ ('}' :: rest))))) from rfl,
          parseVal_ws _ _ _ (by intro x hx; simp at hx; rw [hx]; decide)]
        exact parse_printV v (d + 1) f _ (by omega)
          (headNotDigit_printONext (d + 1) fs _)
      simp only [hw]
      have ho := parse_printO fs (d + 1) f ('\n' :: ind d) rest
        (by omega) (sep_ws d)
      simp only [List.cons_append] at ho
      simp only [ho]

/-- parseArrRest reads back exactly the printed item tail. -/
theorem parse_printA : ∀ (xs : JArr) (d fuel : Nat) (w rest : List Char),
    fuelA xs ≤ fuel → (∀ c ∈ w, isWsChar c = true) →
    parseArrRest fuel (printANext d xs ++ (w ++ (']' :: rest))) = some (xs, rest)
  | .anil, d, fuel, w, rest, hf, hw => by
      simp only [fuelA] at hf
      obtain ⟨f, rfl⟩ : ∃ f, fuel = f + 1 := ⟨fuel - 1, by omega⟩
      simp only [printANext, List.nil_append, parseArrRest]
      rw [skipWs_append _ _ hw, skipWs_cons_not ']' _ (by decide)]
      rfl
  | .acons v ys, d, fuel, w, rest, hf, hw => by
      simp only [fuelA] at hf
      obtain ⟨f, rfl⟩ : ∃ f, fuel = f + 1 := ⟨fuel - 1, by omega⟩
      have hal : printANext d (.acons v ys) ++ (w ++ (']' :: rest))
          = ',' :: ('\n' :: (ind d ++ (printV d v
              ++ (printANext d ys ++ (w ++ (']' :: rest)))))) := by
        show (',' :: '\n' :: (ind d ++ printV d v ++ printANext d ys))
            ++ (w ++ (']' :: rest)) = _
        simp [List.append_assoc]
      rw [hal]
      simp only [parseArrRest]
      rw [skipWs_cons_not ',' _ (by decide)]
      have hv : parseVal f ('\n' :: (ind d ++ (printV d v
          ++ (printANext d ys ++ (w ++ (']' :: rest))))))
          = some (v, printANext d ys ++ (w ++ (']' :: rest))) := by
        rw [show ('\n' :: (ind d ++ (printV d v
            ++ (printANext d ys ++ (w ++ (']' :: rest))))))
            = ('\n' :: ind d) ++ (printV d v
              ++ (printANext d ys ++ (w ++ (']' :: rest)))) from by simp,
          parseVal_ws _ _ _ (sep_ws d)]
        exact parse_printV v d f _ (by omega)
          (headNotDigit_printANext_w d ys w rest hw)
      simp only [hv]
      have ha := parse_printA ys d f w rest (by omega) hw
      simp only [ha]

/-- parseObjRest reads back exactly the printed member tail. -/
theorem parse_printO : ∀ (fs : JObj) (d fuel : Nat) (w rest : List Char),
    fuelO fs ≤ fuel → (∀ c ∈ w, isWsChar c = true) →
    parseObjRest fuel (printONext d fs ++ (w ++ ('}' :: rest))) = some (fs, rest)
  | .onil, d, fuel, w, rest, hf, hw => by
      simp only [fuelO] at hf
      obtain ⟨f, rfl⟩ : ∃ f, fuel = f + 1 := ⟨fuel - 1, by omega⟩
      simp only [printONext, List.nil_append, parseObjRest]
      rw [skipWs_append _ _ hw, skipWs_cons_not '}' _ (by decide)]
      rfl
  | .ocons k v gs, d, fuel, w, rest, hf, hw => by
      simp only [fuelO] at hf
      obtain ⟨f, rfl⟩ : ∃ f, fuel = f + 1 := ⟨fuel - 1, by omega⟩
      have hal : printONext d (.ocons k v gs) ++ (w ++ ('}' :: rest))
          = ',' :: ('\n' :: (ind d ++ ('"' :: (escBody k
              ++ ('"' :: (':' :: (' ' :: (printV d v
                ++ (printONext d gs ++ (w ++ ('}' :: rest))))))))))) := by
        show (',' :: '\n' :: (ind d ++ dumpStr k ++ ':' :: ' ' :: (printV d v
            ++ printONext d gs))) ++ (w ++ ('}' :: rest)) = _
        simp [dumpStr, List.append_assoc]
      rw [hal]
      simp only [parseObjRest]
      rw [skipWs_cons_not ',' _ (by decide)]
      have hsk : skipWs ('\n' :: (ind d ++ ('"' :: (escBody k
          ++ ('"' :: (':' :: (' ' :: (printV d v
            ++ (printONext d gs ++ (w ++ ('}' :: rest)))))))))))
          = '"' :: (escBody k ++ ('"' :: (':' :: (' ' :: (printV d v
              ++ (printONext d gs ++ (w ++ ('}' :: rest)))))))) := by
        rw [show ('\n' :: (ind d ++ ('"' :: (escBody k
            ++ ('"' :: (':' :: (' ' :: (printV d v
              ++ (printONext d gs ++ (w ++ ('}' :: rest)))))))))))
            = ('\n' :: ind d) ++ ('"' :: (escBody k
              ++ ('"' :: (':' :: (' ' :: (printV d v
                ++ (printONext d gs ++ (w ++ ('}' :: rest)))))))))
            from by simp,
          skipWs_append _ _ (sep_ws d), skipWs_cons_not '"' _ (by decide)]
      simp only [hsk]
      have hkey : parseStrBody f (escBody k
          ++ ('"' :: (':' :: (' ' :: (printV d v
            ++ (printONext d gs ++ (w ++ ('}' :: rest))))))))
          = some (k, ':' :: (' ' :: (printV d v
              ++ (printONext d gs ++ (w ++ ('}' :: rest)))))) := by
        obtain ⟨f1, rfl⟩ : ∃ f1, f = f1 + 1 := ⟨f - 1, by omega⟩
        exact parseStrBody_esc k f1 _ (by omega)
      simp only [hkey]
      rw [skipWs_cons_not ':' _ (by decide)]
      have hv : parseVal f (' ' :: (printV d v
          ++ (printONext d gs ++ (w ++ ('}' :: rest)))))
          = some (v, printONext d gs ++ (w ++ ('}' :: rest))) := by
        rw [show (' ' :: (printV d v
            ++ (printONext d gs ++ (w ++ ('}' :: rest)))))
            = [' '] ++ (printV d v
              ++ (printONext d gs ++ (w ++ ('}' :: rest)))) from rfl,
          parseVal_ws _ _ _ (by intro x hx; simp at hx; rw [hx]; decide)]
        exact parse_printV v d f _ (by omega)
          (headNotDigit_printONext_w d gs w rest hw)
      simp only [hv]
      have ho := parse_printO gs d f w rest (by omega) hw
      simp only [ho]
end

/-- Every escaped character takes at least one output character. -/
theorem escChar_len (c : Char) : 1 ≤ (escChar c).length := by
  rw [escChar]
  repeat' split
  all_goals simp

/-- The escaped body is at least as long as the source string. -/
theorem escBody_len (s : List Char) : s.length ≤ (escBody s).length := by
  induction s with
  | nil => simp [escBody]
  | cons c cs ih =>
      rw [escBody_cons, List.length_append, List.length_cons]
      have := escChar_len c
      omega

mutual
/-- The printed form is long enough to cover the parser's fuel need. -/
theorem fuelV_le : ∀ (v : JVal) (d : Nat), fuelV v ≤ (printV d v).length + 1
  | .jnull, d => by simp [fuelV, printV]
  | .jbool true, d => by simp [fuelV, printV]
  | .jbool false, d => by simp [fuelV, printV]
  | .jint n, d => by simp [fuelV, printV]
  | .jstr s, d => by
      have := escBody_len s
      simp only [fuelV, printV, dumpStr, List.length_cons, List.length_append,
        List.length_singleton]
      omega
  | .jarr .anil, d => by simp [fuelV, fuelA, printV]
  | .jarr (.acons v xs), d => by
      have h1 := fuelV_le v (d + 1)
      have h2 := fuelA_le xs (d + 1)
      simp only [fuelV, fuelA, printV, List.length_cons, List.length_append,
        List.length_singleton]
      omega
  | .jobj .onil, d => by simp [fuelV, fuelO, printV]
  | .jobj (.ocons k v fs), d => by
      have h1 := fuelV_le v (d + 1)
      have h2 := fuelO_le fs (d + 1)
      have h3 := escBody_len k
      simp only [fuelV, fuelO, printV, dumpStr, List.length_cons,
        List.length_append, List.length_singleton]
      omega

/-- The printed item tail is long enough to cover the parser's fuel need. -/
theorem fuelA_le : ∀ (xs : JArr) (d : Nat), fuelA xs ≤ (printANext d xs).length + 1
  | .anil, d => by simp [fuelA, printANext]
  | .acons v xs, d => by
      have h1 := fuelV_le v d
      have h2 := fuelA_le xs d
      simp only [fuelA, printANext, List.length_cons, List.length_append]
      omega

/-- The printed member tail is long enough to cover the parser's fuel need. -/
theorem fuelO_le : ∀ (fs : JObj) (d : Nat), fuelO fs ≤ (printONext d fs).length + 1
  | .onil, d => by simp [fuelO, printONext]
  | .ocons k v fs, d => by
      have h1 := fuelV_le v d
      have h2 := fuelO_le fs d
      have h3 := escBody_len k
      simp only [fuelO, printONext, dumpStr, List.length_cons,
        List.length_append, List.length_singleton]
      omega
end

/-- Parsing a printed document returns the original value. -/
theorem parseDoc_printV (v : JVal) : parseDoc (printV 0 v) = some v := by
  have h1 : parseVal ((printV 0 v).length + 1) (printV 0 v ++ []) = some (v, []) :=
    parse_printV v 0 _ [] (fuelV_le v 0) trivial
  rw [List.append_nil] at h1
  simp only [parseDoc, h1]
  rfl

/-- A weighted keyword fold adds its weight once per matching list entry. -/
theorem foldl_tally (p : String → Bool) (w : Nat) :
    ∀ (kws : List String) (init : Nat),
      kws.foldl (fun s kw => if p kw then s + w else s) init
        = init + w * kws.countP p
  | [], _ => by simp
  | k :: ks, init => by
      by_cases h : p k
      · simp only [List.foldl_cons, h, if_true, foldl_tally p w ks (init + w),
          List.countP_cons, h, if_pos]
        ring
      · simp [List.foldl_cons, h, foldl_tally p w ks init, List.countP_cons]

/-- C1: `auto_escalate` reports true and rewrites the record to
Status = "Escalated", Escalated = "Yes" exactly when the record is pending and
strictly more than 3 days old; otherwise it reports false and leaves the
record unchanged. -/
theorem auto_escalate_spec (today : Int) (g : Record) :
    (g.Status = "Pending" ∧ today - g.Date > 3 →
      auto_escalate today g =
        (true, { g with Status := "Escalated", Escalated := "Yes" })) ∧
    (¬(g.Status = "Pending" ∧ today - g.Date > 3) →
      auto_escalate today g = (false, g)) := by
  constructor
  · rintro ⟨h1, h2⟩
    simp [auto_escalate, h1, h2]
  · intro h
    simp only [auto_escalate, if_neg h]

theorem auto_escalate_spec_witness :
    auto_escalate 10 rec0 =
      (true, { rec0 with Status := "Escalated", Escalated := "Yes" }) :=
  (auto_escalate_spec 10 rec0).1 ⟨rfl, by norm_num [rec0]⟩

/-- C2: every score is between 50 and 100. -/
theorem grievance_score_range (text : String) :
    50 ≤ grievance_score text ∧ grievance_score text ≤ 100 := by
  unfold grievance_score
  exact ⟨Nat.le_min.mpr ⟨Nat.le_add_left 50 _, by norm_num⟩, Nat.min_le_right _ _⟩

/-- C3: each keyword list contributes its weight once per contained entry
(`countP` over the list), so an overlapping term accumulates the weight of
every list holding it from a single occurrence, and repeated occurrences in
the text add nothing: "repair" (in both medium and low lists) scores
20 + 5 + 50 = 75, as does "repair repair"; "urgent" (urgent and medium lists)
reaches the 100 cap from one occurrence. -/
theorem grievance_score_once_per_list :
    (∀ text : String,
      grievance_score text =
        min (40 * urgent_keywords.countP (fun kw => kwIn kw text)
              + 20 * medium_keywords.countP (fun kw => kwIn kw text)
              + 5 * low_keywords.countP (fun kw => kwIn kw text)
              + (if kwIn "not resolved" text || kwIn "again" text then 25 else 0)
              + 50) 100) ∧
    grievance_score "repair" = 75 ∧
    grievance_score "repair repair" = 75 ∧
    grievance_score "urgent" = 100 := by
  refine ⟨fun text => ?_, by decide, by decide, by decide⟩
  simp only [grievance_score, tally, foldl_tally]
  by_cases h : (kwIn "not resolved" text || kwIn "again" text) = true
  · simp only [h, if_true]
    congr 1
    ring
  · simp only [h, Bool.false_eq_true, if_false]
    congr 1
    ring

/-- C4 counterexample: "again" contains no keyword from any of the three
scoring lists, yet its score is 75, not 50 (the "not resolved"/"again" bonus
still applies). -/
theorem score_no_keyword_counterexample :
    ((urgent_keywords ++ medium_keywords ++ low_keywords).all
        (fun kw => !(kwIn kw "again"))) = true ∧
    grievance_score "again" = 75 :=
  ⟨by decide, by decide⟩

/-- C4 (amended): a text containing no keyword of the three lists and neither
of the bonus phrases "not resolved" and "again" scores exactly 50. -/
theorem score_no_keyword_eq_50 (text : String)
    (h : ∀ kw ∈ urgent_keywords ++ medium_keywords ++ low_keywords,
      kwIn kw text = false)
    (h1 : kwIn "not resolved" text = false) (h2 : kwIn "again" text = false) :
    grievance_score text = 50 := by
  simp only [List.mem_append] at h
  have hu : urgent_keywords.countP (fun kw => kwIn kw text) = 0 :=
    List.countP_eq_zero.mpr fun kw hk => by simp [h kw (Or.inl (Or.inl hk))]
  have hm : medium_keywords.countP (fun kw => kwIn kw text) = 0 :=
    List.countP_eq_zero.mpr fun kw hk => by simp [h kw (Or.inl (Or.inr hk))]
  have hl : low_keywords.countP (fun kw => kwIn kw text) = 0 :=
    List.countP_eq_zero.mpr fun kw hk => by simp [h kw (Or.inr hk)]
  simp [grievance_score, tally, foldl_tally, h1, h2, hu, hm, hl]

theorem score_no_keyword_eq_50_witness : grievance_score "hello" = 50 :=
  score_no_keyword_eq_50 "hello" (by decide) (by decide) (by decide)

/-- The category loop returns the first matching entry of any table. -/
theorem firstCategory_eq_find (text : String) :
    ∀ l : List (String × List String),
      firstCategory text l =
        (match l.find? (fun p => p.2.any (fun k => kwIn k text)) with
         | some p => p.1
         | none => "Other")
  | [] => rfl
  | (c, kws) :: rest => by
      simp only [firstCategory, List.find?]
      cases h : kws.any (fun k => kwIn k text) with
      | true => simp [h]
      | false => simpa [h] using firstCategory_eq_find text rest

/-- C5: `categorize_grievance` returns the first category in fixed table order
(Water Supply, Garbage, Electricity, Road Damage) with a keyword contained in
the lowercased text, and "Other" when none matches. -/
theorem categorize_grievance_first_match :
    (∀ text : String, categorize_grievance text = categorizeSpec text) ∧
    categorize_grievance "my tap is broken" = "Water Supply" ∧
    categorize_grievance "the roof leaks" = "Other" :=
  ⟨fun text => firstCategory_eq_find text categories, rfl, rfl⟩

/-- C6: for each known category `suggest_action` picks the urgent phrasing
exactly when priority exceeds 70 and the routine phrasing otherwise, and for
any other category it returns the generic review string. -/
theorem suggest_action_spec (p : Nat) :
    (suggest_action "Water Supply" p =
      if p > 70 then "Forward to Jal Nigam for urgent inspection"
      else "Forward to Jal Nigam for regular check") ∧
    (suggest_action "Road Damage" p =
      if p > 70 then "Notify PWD for immediate repair"
      else "Notify PWD for standard check") ∧
    (suggest_action "Garbage" p =
      if p > 70 then "Alert sanitation department for immediate cleaning"
      else "Alert sanitation department for routine collection") ∧
    (suggest_action "Electricity" p =
      if p > 70 then "Notify electricity board for urgent check"
      else "Notify electricity board for regular maintenance") ∧
    (∀ c : String,
      c ∉ (["Water Supply", "Road Damage", "Garbage", "Electricity"] : List String) →
      suggest_action c p = "Review and assign appropriate department.") := by
  refine ⟨?_, ?_, ?_, ?_, fun c hc => ?_⟩
  · by_cases h : p > 70 <;> simp [suggest_action, actions, List.lookup, h]
  · by_cases h : p > 70 <;> simp [suggest_action, actions, List.lookup, h]
  · by_cases h : p > 70 <;> simp [suggest_action, actions, List.lookup, h]
  · by_cases h : p > 70 <;> simp [suggest_action, actions, List.lookup, h]
  · simp only [List.mem_cons, List.not_mem_nil, or_false, not_or] at hc
    obtain ⟨c1, c2, c3, c4⟩ := hc
    have b1 : (c == "Water Supply") = false := beq_eq_false_iff_ne.mpr c1
    have b2 : (c == "Road Damage") = false := beq_eq_false_iff_ne.mpr c2
    have b3 : (c == "Garbage") = false := beq_eq_false_iff_ne.mpr c3
    have b4 : (c == "Electricity") = false := beq_eq_false_iff_ne.mpr c4
    simp [suggest_action, actions, List.lookup, b1, b2, b3, b4]

theorem suggest_action_spec_witness :
    suggest_action "Unknown" 90 = "Review and assign appropriate department." :=
  (suggest_action_spec 90).2.2.2.2 "Unknown" (by decide)

/-- C9: creation stores Escalated = "No"; `auto_escalate` either leaves the
field alone or sets it to "Yes", the latter only when the escalation rule
fires; and every record stored by the Admin Panel update keeps its old
Escalated value unless the rule (chosen status "Pending", more than 3 days
old) set it to "Yes" — so the field only ever flips from "No" to "Yes". -/
theorem escalated_monotone :
    (∀ (id name text : String) (date : Int) (image attachment : Option String),
        (newRecord id name text date image attachment).Escalated = "No") ∧
    (∀ (today : Int) (g : Record),
        (auto_escalate today g).2.Escalated = g.Escalated ∨
          ((auto_escalate today g).2.Escalated = "Yes" ∧
            g.Status = "Pending" ∧ today - g.Date > 3)) ∧
    (∀ (today : Int) (sid ns : String) (gs : List Record) (i : Nat)
        (h1 : i < gs.length) (h2 : i < (updateStatus today sid ns gs).length),
        ((updateStatus today sid ns gs).get ⟨i, h2⟩).Escalated
            = (gs.get ⟨i, h1⟩).Escalated ∨
          (((updateStatus today sid ns gs).get ⟨i, h2⟩).Escalated = "Yes" ∧
            ns = "Pending" ∧ today - (gs.get ⟨i, h1⟩).Date > 3)) := by
  refine ⟨fun _ _ _ _ _ _ => rfl, fun today g => ?_, fun today sid ns gs i h1 h2 => ?_⟩
  · by_cases h : g.Status = "Pending" ∧ today - g.Date > 3
    · exact Or.inr ⟨by simp [auto_escalate, h.1, h.2], h⟩
    · exact Or.inl (by simp [auto_escalate, if_neg h])
  · have hg : (updateStatus today sid ns gs).get ⟨i, h2⟩
        = adminUpdateRecord today sid ns (gs.get ⟨i, h1⟩) := by
      simp [updateStatus]
    set g := gs.get ⟨i, h1⟩ with hgdef
    rw [hg]
    unfold adminUpdateRecord
    by_cases hid : g.ID = sid
    · simp only [hid, if_true]
      by_cases h : ns = "Pending" ∧ today - g.Date > 3
      · refine Or.inr ⟨?_, h⟩
        simp [auto_escalate, h.1, h.2]
      · refine Or.inl ?_
        have : ¬({ g with Status := ns }.Status = "Pending" ∧
            today - ({ g with Status := ns } : Record).Date > 3) := by
          simpa using h
        simp [auto_escalate, if_neg this]
    · simp [hid]

theorem escalated_monotone_witness :
    ((updateStatus 10 "a" "Pending" [rec0]).get ⟨0, by simp [updateStatus]⟩).Escalated
        = (([rec0] : List Record).get ⟨0, by simp⟩).Escalated ∨
      (((updateStatus 10 "a" "Pending" [rec0]).get ⟨0, by simp [updateStatus]⟩).Escalated
          = "Yes" ∧
        "Pending" = "Pending" ∧
        (10 : Int) - (([rec0] : List Record).get ⟨0, by simp⟩).Date > 3) :=
  escalated_monotone.2.2 10 "a" "Pending" [rec0] 0 (by simp) (by simp [updateStatus])

/-- C10: the Admin Panel loop assigns the chosen status before running
`auto_escalate`, so choosing "Pending" for a record more than 3 days old
stores Status = "Escalated", Escalated = "Yes" instead of "Pending", while
choosing "Resolved" or "Escalated" never triggers escalation, whatever the
record's age. -/
theorem adminUpdate_assign_then_escalate (today : Int) (sid : String) (g : Record)
    (hid : g.ID = sid) :
    (today - g.Date > 3 →
      adminUpdateRecord today sid "Pending" g =
        { g with Status := "Escalated", Escalated := "Yes" }) ∧
    adminUpdateRecord today sid "Resolved" g = { g with Status := "Resolved" } ∧
    adminUpdateRecord today sid "Escalated" g = { g with Status := "Escalated" } := by
  refine ⟨fun hage => ?_, ?_, ?_⟩
  · simp [adminUpdateRecord, hid, auto_escalate, hage]
  · simp [adminUpdateRecord, hid, auto_escalate]
  · simp [adminUpdateRecord, hid, auto_escalate]

theorem adminUpdate_assign_then_escalate_witness :
    adminUpdateRecord 10 "a" "Pending" rec0 =
      { rec0 with Status := "Escalated", Escalated := "Yes" } :=
  (adminUpdate_assign_then_escalate 10 "a" rec0 rfl).1 (by norm_num [rec0])

/-- C7: a collection saved by save_grievances, loaded back and saved again,
yields the byte-identical persisted document (the document is pure ASCII, so
characters coincide with bytes); in fact loading returns exactly the saved
collection. -/
theorem save_load_save (v : JVal) :
    load_grievances (some (save_grievances v)) = .ok v ∧
    (load_grievances (some (save_grievances v))).map save_grievances
      = .ok (save_grievances v) := by
  have h := parseDoc_printV v
  constructor
  · simp only [load_grievances, save_grievances, h]
  · simp only [load_grievances, save_grievances, h, Except.map]

/-- C8: load_grievances returns the parsed collection when the persisted
document exists and parses, an empty collection when no document exists yet,
and propagates an uncaught error exactly when the document exists but is
malformed. -/
theorem load_grievances_spec :
    load_grievances none = .ok (.jarr .anil) ∧
    (∀ doc v, parseDoc doc = some v → load_grievances (some doc) = .ok v) ∧
    (∀ doc, parseDoc doc = none → load_grievances (some doc) = .error ()) := by
  refine ⟨rfl, fun doc v h => ?_, fun doc h => ?_⟩ <;>
    simp only [load_grievances, h]

theorem load_grievances_spec_witness :
    load_grievances (some ['{']) = .error () :=
  load_grievances_spec.2.2 ['{'] rfl

end Grievance
